import Mathlib

/-!
Verification of the real-time fan-out core (websocket hub) of gas-town-demo.

The Go source under scrutiny is `handlers` (the websocket hub): the `Hub`
with its `Register` / `Unregister` / `Broadcast` operations, the per-client
`readPump` / `writePump` loops, and the `HandleWebSocket` ingress handler.

Shallow embedding choices:
- Go maps (`map[string]map[*Client]bool`, and the implicit set of live
  client objects) are modelled as association lists with first-match lookup;
  map insert replaces the first matching entry, map delete removes all
  entries with the key (on lists with distinct keys these agree with Go maps).
- A buffered channel `make(chan []byte, 256)` is a FIFO list of payloads
  with a capacity bound plus a closed flag; the non-blocking
  `select { case ch <- m: default: }` enqueues iff the buffer holds fewer
  than 256 entries, otherwise it leaves the buffer unchanged.
- A payload is the decoded message record itself (`json.Marshal` of a
  record of five strings never fails and is injective, so nothing in the
  claims depends on the byte-level encoding).
- Wall-clock time (`time.Now().UTC().Format(time.RFC3339)`) is a string
  parameter `now` to the inbound-iteration function.
- Concurrency: every hub operation runs under the hub lock (`Broadcast`
  under RLock, `Register`/`Unregister` under Lock), so the system is
  modelled as a small-step transition system whose steps are the atomic
  lock-protected operations plus the per-connection loop iterations.
-/

namespace GasTown

/-- Connection lifecycle states of the spec's per-connection state machine
(`Connecting → Active → Draining → Closed`); `Connecting` never appears in
hub state because registration happens in the same handler call that
creates the client. -/
inductive ConnStatus where
  | active
  | draining
  | closed
deriving DecidableEq, Repr

/-- The wire message record (`WSMessage` in the source): five string
fields `type`, `channel_id`, `author`, `content`, `created_at`. -/
structure WSMessage where
  type : String
  channel_id : String
  author : String
  content : String
  created_at : String
deriving DecidableEq, Repr

/-- A payload travelling through a mailbox: the broadcast message record. -/
abbrev Payload := WSMessage

/-- One client connection (`Client` in the source): its bound topic
(`channelID`, immutable), its outbound mailbox (the buffered `send`
channel: pending FIFO contents plus closed flag), and the spec-level
liveness status. -/
structure Conn where
  channelID : String
  mailbox : List Payload
  mbClosed : Bool
  status : ConnStatus
deriving DecidableEq, Repr

/-- Mailbox capacity: `make(chan []byte, 256)` in `HandleWebSocket`. -/
def sendCap : Nat := 256

/-- Association-list lookup: first entry with the key (Go map read). -/
def getEntry {α β : Type} [DecidableEq α] : List (α × β) → α → Option β
  | [], _ => none
  | (k0, v0) :: rest, k => if k0 = k then some v0 else getEntry rest k

/-- Association-list write: replace the first entry with the key, or append
a new entry (Go map assignment). -/
def setEntry {α β : Type} [DecidableEq α] : List (α × β) → α → β → List (α × β)
  | [], k, v => [(k, v)]
  | (k0, v0) :: rest, k, v =>
      if k0 = k then (k, v) :: rest else (k0, v0) :: setEntry rest k v

/-- Association-list delete: remove every entry with the key (Go `delete`). -/
def delEntry {α β : Type} [DecidableEq α] : List (α × β) → α → List (α × β)
  | [], _ => []
  | (k0, v0) :: rest, k =>
      if k0 = k then delEntry rest k else (k0, v0) :: delEntry rest k

/-- The whole system state: the hub's `channels` map (topic → member ids)
together with the live client objects (id → connection record). -/
structure SysState where
  channels : List (String × List Nat)
  conns : List (Nat × Conn)
deriving DecidableEq, Repr

/-- Go `Hub.Register`: create the member set if absent, then add the client
(`h.channels[client.channelID][client] = true`; adding an existing member
is a no-op, as for a Go map key). -/
def registerMember (channels : List (String × List Nat)) (topic : String)
    (cid : Nat) : List (String × List Nat) :=
  match getEntry channels topic with
  | none => setEntry channels topic [cid]
  | some mems => setEntry channels topic (if cid ∈ mems then mems else mems ++ [cid])

/-- Go `Hub.Unregister`: if the client's topic has an entry and the client is
in it, remove the client and close its mailbox; afterwards, if the member
set is empty, delete the topic entry. -/
def unregisterClient (s : SysState) (cid : Nat) : SysState :=
  match getEntry s.conns cid with
  | none => s
  | some c =>
    match getEntry s.channels c.channelID with
    | none => s
    | some mems =>
      { channels :=
          if (mems.filter (fun m => m ≠ cid)).isEmpty
          then delEntry s.channels c.channelID
          else setEntry s.channels c.channelID (mems.filter (fun m => m ≠ cid))
      , conns :=
          if cid ∈ mems
          then setEntry s.conns cid { c with mbClosed := true }
          else s.conns }

/-- The non-blocking enqueue `select { case client.send <- message:
default: }`: append iff the buffer is below capacity, else drop. -/
def trySend (mb : List Payload) (p : Payload) : List Payload :=
  if mb.length < sendCap then mb ++ [p] else mb

/-- One per-member delivery attempt inside `Broadcast`. -/
def enqueueTo (conns : List (Nat × Conn)) (cid : Nat) (p : Payload) :
    List (Nat × Conn) :=
  match getEntry conns cid with
  | none => conns
  | some c => setEntry conns cid { c with mailbox := trySend c.mailbox p }

/-- Go `Hub.Broadcast`: look up the topic's member set; for each member
attempt a non-blocking enqueue of the payload into its mailbox. A missing
topic entry is a silent no-op. -/
def broadcastTo (s : SysState) (topic : String) (p : Payload) : SysState :=
  match getEntry s.channels topic with
  | none => s
  | some mems =>
      { s with conns := mems.foldl (fun cs cid => enqueueTo cs cid p) s.conns }

/-- The stamping step of `readPump` on a successfully decoded message:
`msg.ChannelID = c.channelID`, `msg.Type = "message"`, and
`msg.CreatedAt = now` exactly when the client supplied the empty string;
`author` and `content` are untouched. -/
def stampMessage (channelID now : String) (m : WSMessage) : WSMessage :=
  { m with
    channel_id := channelID
    type := "message"
    created_at := if m.created_at = "" then now else m.created_at }

/-- The state built by `HandleWebSocket` on the accept path: a fresh client
bound to the topic with an empty capacity-256 mailbox, registered in the
hub. -/
def connectClient (s : SysState) (cid : Nat) (topic : String) : SysState :=
  { channels := registerMember s.channels topic cid
  , conns := setEntry s.conns cid
      { channelID := topic, mailbox := [], mbClosed := false, status := .active } }

/-- The `break` path of `readPump` (transport read failure): the deferred
cleanup unregisters the client — the spec's `Active → Draining`
transition — closing its mailbox. -/
def disconnectClient (s : SysState) (cid : Nat) : SysState :=
  match getEntry s.conns cid with
  | none => s
  | some c =>
      unregisterClient
        { s with conns := setEntry s.conns cid { c with status := .draining } } cid

/-- What one `readPump` iteration observed from the transport: a read
error/close, or a raw payload whose JSON decode either failed (`none`) or
produced a message. -/
inductive ReadResult where
  | closed
  | received (decoded : Option WSMessage)
deriving DecidableEq, Repr

/-- One iteration of `readPump` for client `cid`: read error breaks the
loop and triggers the deferred unregister; a decode failure is logged and
the loop continues with no state change; a decoded message is stamped and
broadcast to the client's own topic. -/
def readPumpStep (s : SysState) (cid : Nat) (r : ReadResult) (now : String) :
    SysState :=
  match getEntry s.conns cid with
  | none => s
  | some c =>
    match r with
    | .closed => disconnectClient s cid
    | .received none => s
    | .received (some m) =>
        broadcastTo s c.channelID (stampMessage c.channelID now m)

/-- Dequeue order of `writePump`: `for message := range c.send` takes the
buffered entries front first, so the write sequence is the FIFO contents
in order. -/
def writePumpRun : List Payload → List Payload
  | [] => []
  | p :: rest => p :: writePumpRun rest

/-- Outcome of `HandleWebSocket`. -/
inductive HandleOutcome where
  | clientError (code : Nat)
  | upgradeFailed
  | accepted (cid : Nat)
deriving DecidableEq, Repr

/-- Code `http.StatusBadRequest`. -/
def statusBadRequest : Nat := 400

/-- Go `WSHandler.HandleWebSocket`: an empty `channel` query parameter is
rejected with HTTP 400 before anything is allocated; then the transport
upgrade runs (success is an input to the model); on success a fresh client
with a capacity-256 mailbox is built, registered, and its two loops
started. -/
def handleWebSocket (s : SysState) (channelParam : String) (upgradeOk : Bool)
    (freshId : Nat) : HandleOutcome × SysState :=
  if channelParam = "" then (.clientError statusBadRequest, s)
  else if upgradeOk then (.accepted freshId, connectClient s freshId channelParam)
  else (.upgradeFailed, s)

/-- The atomic steps of the system: each is one lock-protected hub
operation or one loop iteration of a live connection. -/
inductive Step : SysState → SysState → Prop where
  | connect (s : SysState) (cid : Nat) (topic : String) :
      topic ≠ "" → getEntry s.conns cid = none →
      Step s (connectClient s cid topic)
  | inbound (s : SysState) (cid : Nat) (c : Conn) (r : ReadResult) (now : String) :
      getEntry s.conns cid = some c → c.status = .active →
      Step s (readPumpStep s cid r now)
  | dequeue (s : SysState) (cid : Nat) (c : Conn) (p : Payload) (rest : List Payload) :
      getEntry s.conns cid = some c → c.mailbox = p :: rest →
      Step s { s with conns := setEntry s.conns cid { c with mailbox := rest } }
  | drainExit (s : SysState) (cid : Nat) (c : Conn) :
      getEntry s.conns cid = some c → c.status = .draining →
      c.mbClosed = true → c.mailbox = [] →
      Step s { s with conns := setEntry s.conns cid { c with status := .closed } }

/-- States reachable from the freshly constructed hub (`NewHub`: empty
channels map, no clients). -/
inductive Reachable : SysState → Prop where
  | init : Reachable ⟨[], []⟩
  | step {s s' : SysState} : Reachable s → Step s s' → Reachable s'

/-- Inductive invariant of the hub state: distinct keys in both maps; every
topic entry is non-empty, duplicate-free, and holds only ids of live
clients bound to that topic and currently Active; conversely every Active
client is a member of its own topic's entry. -/
def Inv (s : SysState) : Prop :=
  (s.channels.map Prod.fst).Nodup ∧
  (s.conns.map Prod.fst).Nodup ∧
  (∀ t mems, getEntry s.channels t = some mems →
      mems ≠ [] ∧ mems.Nodup ∧
      ∀ cid, cid ∈ mems → ∃ c, getEntry s.conns cid = some c ∧
        c.channelID = t ∧ c.status = ConnStatus.active) ∧
  (∀ cid c, getEntry s.conns cid = some c → c.status = ConnStatus.active →
      ∃ mems, getEntry s.channels c.channelID = some mems ∧ cid ∈ mems)

/-- Fixture: a client-supplied message with a spoofed topic and an empty
timestamp. -/
def exMsgEmpty : WSMessage :=
  { type := "whatever", channel_id := "spoofed", author := "alice"
  , content := "hi", created_at := "" }

/-- Fixture: a client-supplied message whose timestamp is not RFC3339. -/
def exMsgOdd : WSMessage :=
  { type := "m", channel_id := "c", author := "bob"
  , content := "yo", created_at := "not-a-timestamp" }

/-- Fixture: a freshly connected client bound to topic `general`. -/
def exConnA : Conn :=
  { channelID := "general", mailbox := [], mbClosed := false, status := .active }

/-- Fixture: a `general` client whose mailbox is at capacity. -/
def exConnFull : Conn :=
  { channelID := "general", mailbox := List.replicate 256 exMsgEmpty
  , mbClosed := false, status := .active }

/-- Fixture: two clients (ids 0 and 1) in topic `general`. -/
def exStateAB : SysState :=
  { channels := [("general", [0, 1])]
  , conns := [(0, exConnA), (1, exConnA)] }

/-- Fixture: client 0 at mailbox capacity, client 1 with room, both in
`general`. -/
def exStateFull : SysState :=
  { channels := [("general", [0, 1])]
  , conns := [(0, exConnFull), (1, exConnA)] }

/-! ### Association-list lemmas -/

theorem getEntry_setEntry_self {α β : Type} [DecidableEq α]
    (l : List (α × β)) (k : α) (v : β) :
    getEntry (setEntry l k v) k = some v := by
  induction l with
  | nil => simp [setEntry, getEntry]
  | cons hd tl ih =>
    obtain ⟨k0, v0⟩ := hd
    by_cases h : k0 = k
    · simp [setEntry, h, getEntry]
    · simp [setEntry, h, getEntry, ih]

theorem getEntry_setEntry_ne {α β : Type} [DecidableEq α]
    (l : List (α × β)) (k k' : α) (v : β) (h : k' ≠ k) :
    getEntry (setEntry l k v) k' = getEntry l k' := by
  induction l with
  | nil => simp [setEntry, getEntry, Ne.symm h]
  | cons hd tl ih =>
    obtain ⟨k0, v0⟩ := hd
    by_cases hk : k0 = k
    · subst hk
      simp [setEntry, getEntry, Ne.symm h]
    · simp only [setEntry, if_neg hk, getEntry]
      by_cases hk' : k0 = k'
      · simp [hk']
      · simp [hk', ih]

theorem getEntry_delEntry_self {α β : Type} [DecidableEq α]
    (l : List (α × β)) (k : α) :
    getEntry (delEntry l k) k = none := by
  induction l with
  | nil => simp [delEntry, getEntry]
  | cons hd tl ih =>
    obtain ⟨k0, v0⟩ := hd
    by_cases h : k0 = k
    · simpa [delEntry, h] using ih
    · simp [delEntry, h, getEntry, ih]

theorem getEntry_delEntry_ne {α β : Type} [DecidableEq α]
    (l : List (α × β)) (k k' : α) (h : k' ≠ k) :
    getEntry (delEntry l k) k' = getEntry l k' := by
  induction l with
  | nil => simp [delEntry]
  | cons hd tl ih =>
    obtain ⟨k0, v0⟩ := hd
    by_cases hk : k0 = k
    · subst hk
      simp [delEntry, getEntry, Ne.symm h, ih]
    · by_cases hk' : k0 = k'
      · subst hk'
        simp [delEntry, h, getEntry]
      · simp [delEntry, hk, hk', getEntry, ih]

theorem setEntry_eq_of_getEntry {α β : Type} [DecidableEq α]
    (l : List (α × β)) (k : α) (v : β) (h : getEntry l k = some v) :
    setEntry l k v = l := by
  induction l with
  | nil => simp [getEntry] at h
  | cons hd tl ih =>
    obtain ⟨k0, v0⟩ := hd
    by_cases hk : k0 = k
    · subst hk
      have hv : v0 = v := by simpa [getEntry] using h
      subst hv
      simp [setEntry]
    · simp only [getEntry, if_neg hk] at h
      simp [setEntry, hk, ih h]

theorem setEntry_setEntry {α β : Type} [DecidableEq α]
    (l : List (α × β)) (k : α) (v w : β) :
    setEntry (setEntry l k v) k w = setEntry l k w := by
  induction l with
  | nil => simp [setEntry]
  | cons hd tl ih =>
    obtain ⟨k0, v0⟩ := hd
    by_cases hk : k0 = k
    · simp [setEntry, hk]
    · simp [setEntry, hk, ih]

theorem getEntry_eq_none_iff {α β : Type} [DecidableEq α]
    (l : List (α × β)) (k : α) :
    getEntry l k = none ↔ k ∉ l.map Prod.fst := by
  induction l with
  | nil => simp [getEntry]
  | cons hd tl ih =>
    obtain ⟨k0, v0⟩ := hd
    by_cases hk : k0 = k
    · simp [getEntry, hk]
    · simp [getEntry, hk, ih, Ne.symm hk]

theorem map_fst_setEntry {α β : Type} [DecidableEq α]
    (l : List (α × β)) (k : α) (v : β) :
    (setEntry l k v).map Prod.fst =
      if k ∈ l.map Prod.fst then l.map Prod.fst else l.map Prod.fst ++ [k] := by
  induction l with
  | nil => simp [setEntry]
  | cons hd tl ih =>
    obtain ⟨k0, v0⟩ := hd
    by_cases hk : k0 = k
    · simp [setEntry, hk]
    · simp only [setEntry, if_neg hk, List.map_cons, ih]
      by_cases hm : k ∈ tl.map Prod.fst
      · simp [hm, hk, Ne.symm hk]
      · simp [hm, hk, Ne.symm hk]

theorem nodup_keys_setEntry {α β : Type} [DecidableEq α]
    (l : List (α × β)) (k : α) (v : β) (h : (l.map Prod.fst).Nodup) :
    ((setEntry l k v).map Prod.fst).Nodup := by
  rw [map_fst_setEntry]
  by_cases hm : k ∈ l.map Prod.fst
  · simpa [hm] using h
  · simp only [hm, if_false]
    exact h.append (List.nodup_singleton _)
      (fun a ha hb => hm ((List.mem_singleton.mp hb) ▸ ha))

theorem delEntry_sublist {α β : Type} [DecidableEq α]
    (l : List (α × β)) (k : α) : List.Sublist (delEntry l k) l := by
  induction l with
  | nil => simp [delEntry]
  | cons hd tl ih =>
    obtain ⟨k0, v0⟩ := hd
    by_cases h : k0 = k
    · simpa [delEntry, h] using ih.cons (k0, v0)
    · simpa [delEntry, h] using ih.cons₂ (k0, v0)

theorem nodup_keys_delEntry {α β : Type} [DecidableEq α]
    (l : List (α × β)) (k : α) (h : (l.map Prod.fst).Nodup) :
    ((delEntry l k).map Prod.fst).Nodup :=
  h.sublist ((delEntry_sublist l k).map Prod.fst)

/-! ### Member-list filter lemmas -/

theorem mem_filter_ne (l : List Nat) (cid m : Nat) :
    m ∈ l.filter (fun x => x ≠ cid) ↔ m ∈ l ∧ m ≠ cid := by
  simp [List.mem_filter]

theorem not_mem_filter_ne_self (l : List Nat) (cid : Nat) :
    cid ∉ l.filter (fun x => x ≠ cid) := by
  intro h
  exact ((mem_filter_ne l cid cid).mp h).2 rfl

theorem filter_ne_of_not_mem (l : List Nat) (cid : Nat) (h : cid ∉ l) :
    l.filter (fun x => x ≠ cid) = l := by
  induction l with
  | nil => rfl
  | cons a tl ih =>
    have ha : a ≠ cid := fun e => h (e ▸ List.mem_cons_self a tl)
    have htl : cid ∉ tl := fun hx => h (List.mem_cons_of_mem a hx)
    rw [List.filter_cons, ih htl]
    simp [ha]

theorem filter_ne_idem (l : List Nat) (cid : Nat) :
    (l.filter (fun x => x ≠ cid)).filter (fun x => x ≠ cid)
      = l.filter (fun x => x ≠ cid) :=
  filter_ne_of_not_mem _ cid (not_mem_filter_ne_self l cid)

/-! ### Broadcast delivery lemmas -/

theorem enqueueTo_getEntry_ne (conns : List (Nat × Conn)) (cid r : Nat)
    (p : Payload) (h : cid ≠ r) :
    getEntry (enqueueTo conns cid p) r = getEntry conns r := by
  unfold enqueueTo
  cases hc : getEntry conns cid with
  | none => rfl
  | some c => exact getEntry_setEntry_ne _ _ _ _ (Ne.symm h)

theorem getEntry_foldl_enqueue_not_mem (mems : List Nat)
    (conns : List (Nat × Conn)) (p : Payload) (r : Nat) (hr : r ∉ mems) :
    getEntry (mems.foldl (fun cs cid => enqueueTo cs cid p) conns) r
      = getEntry conns r := by
  induction mems generalizing conns with
  | nil => rfl
  | cons m rest ih =>
    simp only [List.foldl_cons]
    have hm : m ≠ r := fun e => hr (e ▸ List.mem_cons_self m rest)
    rw [ih _ (fun hx => hr (List.mem_cons_of_mem m hx)),
        enqueueTo_getEntry_ne _ _ _ _ hm]

theorem getEntry_foldl_enqueue (mems : List Nat) (conns : List (Nat × Conn))
    (p : Payload) (r : Nat) (c : Conn) (hnd : mems.Nodup) (hr : r ∈ mems)
    (hc : getEntry conns r = some c) :
    getEntry (mems.foldl (fun cs cid => enqueueTo cs cid p) conns) r
      = some { c with mailbox := trySend c.mailbox p } := by
  induction mems generalizing conns c with
  | nil => cases hr
  | cons m rest ih =>
    simp only [List.foldl_cons]
    by_cases hm : m = r
    · subst hm
      have hnotin : m ∉ rest := (List.nodup_cons.mp hnd).1
      rw [getEntry_foldl_enqueue_not_mem rest _ p m hnotin]
      unfold enqueueTo
      rw [hc]
      exact getEntry_setEntry_self _ _ _
    · have hr' : r ∈ rest := by
        rcases List.mem_cons.mp hr with h | h
        · exact absurd h.symm hm
        · exact h
      have hstep : getEntry (enqueueTo conns m p) r = some c := by
        rw [enqueueTo_getEntry_ne _ _ _ _ hm, hc]
      exact ih _ _ (List.nodup_cons.mp hnd).2 hr' hstep

theorem enqueueTo_shape (conns : List (Nat × Conn)) (cid : Nat) (p : Payload)
    (r : Nat) :
    (getEntry conns r = none → getEntry (enqueueTo conns cid p) r = none) ∧
    (∀ c, getEntry conns r = some c →
      ∃ c', getEntry (enqueueTo conns cid p) r = some c' ∧
        c'.channelID = c.channelID ∧ c'.status = c.status ∧
        c'.mbClosed = c.mbClosed) := by
  by_cases hm : cid = r
  · subst hm
    cases hc : getEntry conns cid with
    | none =>
        refine ⟨fun h => ?_, fun c h => Option.noConfusion h⟩
        simp only [enqueueTo, hc]
    | some c0 =>
        refine ⟨fun h => Option.noConfusion h, fun c h => ?_⟩
        obtain rfl : c0 = c := Option.some.inj h
        refine ⟨{ c0 with mailbox := trySend c0.mailbox p }, ?_, rfl, rfl, rfl⟩
        simp only [enqueueTo, hc]
        exact getEntry_setEntry_self _ _ _
  · rw [enqueueTo_getEntry_ne _ _ _ _ hm]
    exact ⟨fun h => h, fun c h => ⟨c, h, rfl, rfl, rfl⟩⟩

theorem foldl_enqueue_shape (mems : List Nat) (conns : List (Nat × Conn))
    (p : Payload) (r : Nat) :
    (getEntry conns r = none →
      getEntry (mems.foldl (fun cs cid => enqueueTo cs cid p) conns) r = none) ∧
    (∀ c, getEntry conns r = some c →
      ∃ c', getEntry (mems.foldl (fun cs cid => enqueueTo cs cid p) conns) r
          = some c' ∧
        c'.channelID = c.channelID ∧ c'.status = c.status ∧
        c'.mbClosed = c.mbClosed) := by
  induction mems generalizing conns with
  | nil => exact ⟨fun h => h, fun c h => ⟨c, h, rfl, rfl, rfl⟩⟩
  | cons m rest ih =>
    simp only [List.foldl_cons]
    constructor
    · intro h
      exact (ih (enqueueTo conns m p)).1 ((enqueueTo_shape conns m p r).1 h)
    · intro c h
      obtain ⟨c1, hc1, h1, h2, h3⟩ := (enqueueTo_shape conns m p r).2 c h
      obtain ⟨c2, hc2, g1, g2, g3⟩ := (ih (enqueueTo conns m p)).2 c1 hc1
      exact ⟨c2, hc2, g1.trans h1, g2.trans h2, g3.trans h3⟩

theorem broadcastTo_conns (s : SysState) (topic : String) (p : Payload)
    (mems : List Nat) (hm : getEntry s.channels topic = some mems) :
    (broadcastTo s topic p).conns
      = mems.foldl (fun cs cid => enqueueTo cs cid p) s.conns := by
  simp only [broadcastTo, hm]

theorem broadcastTo_channels (s : SysState) (topic : String) (p : Payload) :
    (broadcastTo s topic p).channels = s.channels := by
  unfold broadcastTo
  cases getEntry s.channels topic with
  | none => rfl
  | some mems => rfl

theorem writePumpRun_eq (l : List Payload) : writePumpRun l = l := by
  induction l with
  | nil => rfl
  | cons p rest ih => simp [writePumpRun, ih]

theorem getEntry_some_keys_mem {α β : Type} [DecidableEq α]
    (l : List (α × β)) (k : α) (v : β) (h : getEntry l k = some v) :
    k ∈ l.map Prod.fst := by
  by_contra hk
  rw [(getEntry_eq_none_iff l k).mpr hk] at h
  cases h

theorem getEntry_some_of_mem_keys {α β : Type} [DecidableEq α]
    (l : List (α × β)) (k : α) (h : k ∈ l.map Prod.fst) :
    ∃ v, getEntry l k = some v := by
  cases hv : getEntry l k with
  | none => exact absurd h ((getEntry_eq_none_iff l k).mp hv)
  | some v => exact ⟨v, rfl⟩

theorem keys_enqueueTo (conns : List (Nat × Conn)) (cid : Nat) (p : Payload) :
    (enqueueTo conns cid p).map Prod.fst = conns.map Prod.fst := by
  unfold enqueueTo
  cases hc : getEntry conns cid with
  | none => rfl
  | some c =>
    rw [map_fst_setEntry]
    simp [getEntry_some_keys_mem conns cid c hc]

theorem keys_foldl_enqueue (mems : List Nat) (conns : List (Nat × Conn))
    (p : Payload) :
    ((mems.foldl (fun cs cid => enqueueTo cs cid p) conns).map Prod.fst)
      = conns.map Prod.fst := by
  induction mems generalizing conns with
  | nil => rfl
  | cons m rest ih =>
    simp only [List.foldl_cons]
    rw [ih, keys_enqueueTo]

theorem foldl_enqueue_shape_rev (mems : List Nat) (conns : List (Nat × Conn))
    (p : Payload) (r : Nat) (c' : Conn)
    (h : getEntry (mems.foldl (fun cs cid => enqueueTo cs cid p) conns) r
      = some c') :
    ∃ c0, getEntry conns r = some c0 ∧ c'.channelID = c0.channelID ∧
      c'.status = c0.status ∧ c'.mbClosed = c0.mbClosed := by
  have hk : r ∈ conns.map Prod.fst := by
    rw [← keys_foldl_enqueue mems conns p]
    exact getEntry_some_keys_mem _ _ _ h
  obtain ⟨c0, hc0⟩ := getEntry_some_of_mem_keys _ _ hk
  obtain ⟨c1, hc1, e1, e2, e3⟩ := (foldl_enqueue_shape mems conns p r).2 c0 hc0
  rw [h] at hc1
  obtain rfl : c' = c1 := Option.some.inj hc1
  exact ⟨c0, hc0, e1, e2, e3⟩

theorem registerMember_as_setEntry (channels : List (String × List Nat))
    (topic : String) (cid : Nat) :
    ∃ v, registerMember channels topic cid = setEntry channels topic v := by
  unfold registerMember
  cases getEntry channels topic with
  | none => exact ⟨[cid], rfl⟩
  | some mems => exact ⟨if cid ∈ mems then mems else mems ++ [cid], rfl⟩

theorem unregisterClient_eq (s : SysState) (cid : Nat) (c : Conn)
    (mems : List Nat) (hc : getEntry s.conns cid = some c)
    (hch : getEntry s.channels c.channelID = some mems) :
    unregisterClient s cid =
      { channels :=
          if (mems.filter (fun m => m ≠ cid)).isEmpty
          then delEntry s.channels c.channelID
          else setEntry s.channels c.channelID (mems.filter (fun m => m ≠ cid))
      , conns :=
          if cid ∈ mems
          then setEntry s.conns cid { c with mbClosed := true }
          else s.conns } := by
  simp only [unregisterClient, hc, hch]

theorem unregisterClient_no_conn (s : SysState) (cid : Nat)
    (hc : getEntry s.conns cid = none) : unregisterClient s cid = s := by
  simp only [unregisterClient, hc]

theorem unregisterClient_no_topic (s : SysState) (cid : Nat) (c : Conn)
    (hc : getEntry s.conns cid = some c)
    (hch : getEntry s.channels c.channelID = none) :
    unregisterClient s cid = s := by
  simp only [unregisterClient, hc, hch]

/-! ### Invariant preservation -/

theorem inv_init : Inv ⟨[], []⟩ := by
  refine ⟨List.nodup_nil, List.nodup_nil, ?_, ?_⟩
  · intro t mems h
    cases h
  · intro cid c h
    cases h

theorem inv_connect (s : SysState) (cid : Nat) (topic : String)
    (hinv : Inv s) (hfresh : getEntry s.conns cid = none) :
    Inv (connectClient s cid topic) := by
  obtain ⟨K1, K2, M, A⟩ := hinv
  have hnot : ∀ t mems, getEntry s.channels t = some mems → cid ∉ mems := by
    intro t mems hm hin
    obtain ⟨cm, hcm, _, _⟩ := (M t mems hm).2.2 cid hin
    rw [hfresh] at hcm
    cases hcm
  refine ⟨?_, ?_, ?_, ?_⟩ <;> simp only [connectClient]
  · obtain ⟨v, hv⟩ := registerMember_as_setEntry s.channels topic cid
    rw [hv]
    exact nodup_keys_setEntry _ _ _ K1
  · exact nodup_keys_setEntry _ _ _ K2
  · intro t mems' hm'
    by_cases ht : t = topic
    · subst ht
      cases hch : getEntry s.channels t with
      | none =>
        have e : getEntry (registerMember s.channels t cid) t = some [cid] := by
          simp only [registerMember, hch]
          exact getEntry_setEntry_self _ _ _
        rw [e] at hm'
        obtain rfl := Option.some.inj hm'
        refine ⟨by simp, List.nodup_singleton _, ?_⟩
        intro m hmem
        rw [List.mem_singleton] at hmem
        subst hmem
        exact ⟨_, getEntry_setEntry_self _ _ _, rfl, rfl⟩
      | some mems =>
        have hnm := hnot t mems hch
        have e : getEntry (registerMember s.channels t cid) t
            = some (mems ++ [cid]) := by
          simp only [registerMember, hch, if_neg hnm]
          exact getEntry_setEntry_self _ _ _
        rw [e] at hm'
        obtain rfl := Option.some.inj hm'
        obtain ⟨hne, hnd, hmems⟩ := M t mems hch
        refine ⟨by simp, ?_, ?_⟩
        · exact hnd.append (List.nodup_singleton _)
            (fun a ha hb => hnm ((List.mem_singleton.mp hb) ▸ ha))
        · intro m hm2
          rcases List.mem_append.mp hm2 with h | h
          · obtain ⟨cm, hcm, hb, hs⟩ := hmems m h
            have hmne : m ≠ cid := by
              intro e2
              rw [e2, hfresh] at hcm
              cases hcm
            refine ⟨cm, ?_, hb, hs⟩
            rw [getEntry_setEntry_ne _ _ _ _ hmne]
            exact hcm
          · rw [List.mem_singleton] at h
            subst h
            exact ⟨_, getEntry_setEntry_self _ _ _, rfl, rfl⟩
    · obtain ⟨v, hv⟩ := registerMember_as_setEntry s.channels topic cid
      rw [hv, getEntry_setEntry_ne _ _ _ _ ht] at hm'
      obtain ⟨hne, hnd, hmems⟩ := M t mems' hm'
      refine ⟨hne, hnd, ?_⟩
      intro m hm2
      obtain ⟨cm, hcm, hb, hs⟩ := hmems m hm2
      have hmne : m ≠ cid := by
        intro e2
        rw [e2, hfresh] at hcm
        cases hcm
      refine ⟨cm, ?_, hb, hs⟩
      rw [getEntry_setEntry_ne _ _ _ _ hmne]
      exact hcm
  · intro cid' c' hc' hact
    by_cases h : cid' = cid
    · subst h
      rw [getEntry_setEntry_self] at hc'
      obtain rfl := Option.some.inj hc'
      cases hch : getEntry s.channels topic with
      | none =>
        refine ⟨[cid'], ?_, List.mem_singleton_self _⟩
        simp only [registerMember, hch]
        exact getEntry_setEntry_self _ _ _
      | some mems =>
        have hnm := hnot topic mems hch
        refine ⟨mems ++ [cid'], ?_, by simp⟩
        simp only [registerMember, hch, if_neg hnm]
        exact getEntry_setEntry_self _ _ _
    · rw [getEntry_setEntry_ne _ _ _ _ h] at hc'
      obtain ⟨mems, hmem, hin⟩ := A cid' c' hc' hact
      by_cases hb : c'.channelID = topic
      · rw [hb] at hmem ⊢
        have hnm := hnot topic mems hmem
        refine ⟨mems ++ [cid], ?_, List.mem_append_left _ hin⟩
        simp only [registerMember, hmem, if_neg hnm]
        exact getEntry_setEntry_self _ _ _
      · refine ⟨mems, ?_, hin⟩
        obtain ⟨v, hv⟩ := registerMember_as_setEntry s.channels topic cid
        rw [hv, getEntry_setEntry_ne _ _ _ _ hb]
        exact hmem

theorem inv_broadcast (s : SysState) (topic : String) (p : Payload)
    (hinv : Inv s) : Inv (broadcastTo s topic p) := by
  obtain ⟨K1, K2, M, A⟩ := hinv
  cases hch : getEntry s.channels topic with
  | none =>
    have e : broadcastTo s topic p = s := by
      simp only [broadcastTo, hch]
    rw [e]
    exact ⟨K1, K2, M, A⟩
  | some mems =>
    have ec : (broadcastTo s topic p).channels = s.channels :=
      broadcastTo_channels s topic p
    have en : (broadcastTo s topic p).conns
        = mems.foldl (fun cs cid => enqueueTo cs cid p) s.conns :=
      broadcastTo_conns s topic p mems hch
    refine ⟨?_, ?_, ?_, ?_⟩
    · rw [ec]
      exact K1
    · rw [en, keys_foldl_enqueue]
      exact K2
    · intro t mems' hm'
      rw [ec] at hm'
      obtain ⟨hne, hnd, hmems⟩ := M t mems' hm'
      refine ⟨hne, hnd, ?_⟩
      intro m hm2
      obtain ⟨cm, hcm, hb, hs⟩ := hmems m hm2
      obtain ⟨c2, hc2, e1, e2, _⟩ := (foldl_enqueue_shape mems s.conns p m).2 cm hcm
      refine ⟨c2, ?_, e1.trans hb, e2.trans hs⟩
      rw [en]
      exact hc2
    · intro cid c' hc' hact
      rw [en] at hc'
      obtain ⟨c0, hc0, e1, e2, _⟩ := foldl_enqueue_shape_rev mems s.conns p cid c' hc'
      obtain ⟨mems', hm', hin⟩ := A cid c0 hc0 (e2 ▸ hact)
      refine ⟨mems', ?_, hin⟩
      rw [ec, e1]
      exact hm'

theorem inv_update_conn (s : SysState) (cid : Nat) (c c' : Conn)
    (hinv : Inv s) (hc : getEntry s.conns cid = some c)
    (hch : c'.channelID = c.channelID) (hst : c'.status = c.status) :
    Inv ⟨s.channels, setEntry s.conns cid c'⟩ := by
  obtain ⟨K1, K2, M, A⟩ := hinv
  refine ⟨K1, nodup_keys_setEntry _ _ _ K2, ?_, ?_⟩
  · intro t mems' hm'
    obtain ⟨hne, hnd, hmems⟩ := M t mems' hm'
    refine ⟨hne, hnd, ?_⟩
    intro m hm2
    obtain ⟨cm, hcm, hb, hs⟩ := hmems m hm2
    by_cases h : m = cid
    · subst h
      rw [hc] at hcm
      obtain rfl := Option.some.inj hcm
      exact ⟨c', getEntry_setEntry_self _ _ _, hch.trans hb, hst.trans hs⟩
    · refine ⟨cm, ?_, hb, hs⟩
      rw [getEntry_setEntry_ne _ _ _ _ h]
      exact hcm
  · intro cid' c2 hc2 hact
    by_cases h : cid' = cid
    · subst h
      rw [getEntry_setEntry_self] at hc2
      obtain rfl := Option.some.inj hc2
      obtain ⟨mems, hm, hin⟩ := A cid' c hc (hst ▸ hact)
      refine ⟨mems, ?_, hin⟩
      rw [hch]
      exact hm
    · rw [getEntry_setEntry_ne _ _ _ _ h] at hc2
      exact A cid' c2 hc2 hact

theorem inv_update_conn_inactive (s : SysState) (cid : Nat) (c c' : Conn)
    (hinv : Inv s) (hc : getEntry s.conns cid = some c)
    (hold : c.status ≠ ConnStatus.active)
    (hnew : c'.status ≠ ConnStatus.active) :
    Inv ⟨s.channels, setEntry s.conns cid c'⟩ := by
  obtain ⟨K1, K2, M, A⟩ := hinv
  refine ⟨K1, nodup_keys_setEntry _ _ _ K2, ?_, ?_⟩
  · intro t mems' hm'
    obtain ⟨hne, hnd, hmems⟩ := M t mems' hm'
    refine ⟨hne, hnd, ?_⟩
    intro m hm2
    obtain ⟨cm, hcm, hb, hs⟩ := hmems m hm2
    by_cases h : m = cid
    · subst h
      rw [hc] at hcm
      obtain rfl := Option.some.inj hcm
      exact absurd hs hold
    · refine ⟨cm, ?_, hb, hs⟩
      rw [getEntry_setEntry_ne _ _ _ _ h]
      exact hcm
  · intro cid' c2 hc2 hact
    by_cases h : cid' = cid
    · subst h
      rw [getEntry_setEntry_self] at hc2
      obtain rfl := Option.some.inj hc2
      exact absurd hact hnew
    · rw [getEntry_setEntry_ne _ _ _ _ h] at hc2
      exact A cid' c2 hc2 hact

theorem inv_disconnect (s : SysState) (cid : Nat) (c : Conn)
    (hinv : Inv s) (hc : getEntry s.conns cid = some c)
    (hact : c.status = ConnStatus.active) :
    Inv (disconnectClient s cid) := by
  obtain ⟨K1, K2, M, A⟩ := hinv
  obtain ⟨mems, hmem, hin⟩ := A cid c hc hact
  have hdisj : ∀ t mems', getEntry s.channels t = some mems' → cid ∈ mems' →
      t = c.channelID := by
    intro t mems' hm' hin'
    obtain ⟨cm, hcm, hb, _⟩ := (M t mems' hm').2.2 cid hin'
    rw [hc] at hcm
    obtain rfl := Option.some.inj hcm
    exact hb.symm
  have e0 : disconnectClient s cid
      = unregisterClient
          ⟨s.channels, setEntry s.conns cid { c with status := .draining }⟩
          cid := by
    simp only [disconnectClient, hc]
  have g1 : getEntry (setEntry s.conns cid { c with status := .draining }) cid
      = some { c with status := .draining } :=
    getEntry_setEntry_self _ _ _
  have e1 := unregisterClient_eq
    ⟨s.channels, setEntry s.conns cid { c with status := .draining }⟩
    cid { c with status := .draining } mems g1 hmem
  rw [if_pos hin, setEntry_setEntry] at e1
  rw [e0, e1]
  by_cases hemp : (mems.filter (fun m => m ≠ cid)).isEmpty
  · rw [if_pos hemp]
    refine ⟨nodup_keys_delEntry _ _ K1, nodup_keys_setEntry _ _ _ K2, ?_, ?_⟩
    · intro t mems' hm'
      by_cases ht : t = c.channelID
      · subst ht
        rw [getEntry_delEntry_self] at hm'
        cases hm'
      · rw [getEntry_delEntry_ne _ _ _ ht] at hm'
        obtain ⟨hne, hnd, hmems⟩ := M t mems' hm'
        refine ⟨hne, hnd, ?_⟩
        intro m hm2
        obtain ⟨cm, hcm, hb, hs⟩ := hmems m hm2
        have hmne : m ≠ cid := by
          intro e2
          exact ht (hdisj t mems' hm' (e2 ▸ hm2))
        refine ⟨cm, ?_, hb, hs⟩
        rw [getEntry_setEntry_ne _ _ _ _ hmne]
        exact hcm
    · intro cid' c2 hc2 hact2
      by_cases h : cid' = cid
      · subst h
        rw [getEntry_setEntry_self] at hc2
        obtain rfl := Option.some.inj hc2
        cases hact2
      · rw [getEntry_setEntry_ne _ _ _ _ h] at hc2
        obtain ⟨mems', hm', hin'⟩ := A cid' c2 hc2 hact2
        by_cases hb : c2.channelID = c.channelID
        · rw [hb] at hm'
          rw [hmem] at hm'
          obtain rfl := Option.some.inj hm'
          have hmm : cid' ∈ mems.filter (fun m => m ≠ cid) :=
            (mem_filter_ne mems cid cid').mpr ⟨hin', h⟩
          rw [List.isEmpty_iff.mp hemp] at hmm
          cases hmm
        · refine ⟨mems', ?_, hin'⟩
          rw [getEntry_delEntry_ne _ _ _ hb]
          exact hm'
  · rw [if_neg hemp]
    refine ⟨nodup_keys_setEntry _ _ _ K1, nodup_keys_setEntry _ _ _ K2, ?_, ?_⟩
    · intro t mems' hm'
      by_cases ht : t = c.channelID
      · subst ht
        rw [getEntry_setEntry_self] at hm'
        obtain rfl := Option.some.inj hm'
        obtain ⟨hne, hnd, hmems⟩ := M c.channelID mems hmem
        refine ⟨?_, hnd.filter _, ?_⟩
        · intro e2
          rw [e2] at hemp
          exact hemp rfl
        · intro m hm2
          obtain ⟨hm3, hmne⟩ := (mem_filter_ne mems cid m).mp hm2
          obtain ⟨cm, hcm, hb, hs⟩ := hmems m hm3
          refine ⟨cm, ?_, hb, hs⟩
          rw [getEntry_setEntry_ne _ _ _ _ hmne]
          exact hcm
      · rw [getEntry_setEntry_ne _ _ _ _ ht] at hm'
        obtain ⟨hne, hnd, hmems⟩ := M t mems' hm'
        refine ⟨hne, hnd, ?_⟩
        intro m hm2
        obtain ⟨cm, hcm, hb, hs⟩ := hmems m hm2
        have hmne : m ≠ cid := by
          intro e2
          exact ht (hdisj t mems' hm' (e2 ▸ hm2))
        refine ⟨cm, ?_, hb, hs⟩
        rw [getEntry_setEntry_ne _ _ _ _ hmne]
        exact hcm
    · intro cid' c2 hc2 hact2
      by_cases h : cid' = cid
      · subst h
        rw [getEntry_setEntry_self] at hc2
        obtain rfl := Option.some.inj hc2
        cases hact2
      · rw [getEntry_setEntry_ne _ _ _ _ h] at hc2
        obtain ⟨mems', hm', hin'⟩ := A cid' c2 hc2 hact2
        by_cases hb : c2.channelID = c.channelID
        · rw [hb] at hm'
          rw [hmem] at hm'
          obtain rfl := Option.some.inj hm'
          refine ⟨mems.filter (fun m => m ≠ cid), ?_, ?_⟩
          · rw [hb]
            exact getEntry_setEntry_self _ _ _
          · exact (mem_filter_ne mems cid cid').mpr ⟨hin', h⟩
        · refine ⟨mems', ?_, hin'⟩
          rw [getEntry_setEntry_ne _ _ _ _ hb]
          exact hm'

theorem inv_step (s s' : SysState) (hinv : Inv s) (hstep : Step s s') :
    Inv s' := by
  cases hstep with
  | connect cid topic ht hfresh => exact inv_connect s cid topic hinv hfresh
  | inbound cid c r now hc hact =>
    cases r with
    | closed =>
      have e : readPumpStep s cid .closed now = disconnectClient s cid := by
        simp only [readPumpStep, hc]
      rw [e]
      exact inv_disconnect s cid c hinv hc hact
    | received o =>
      cases o with
      | none =>
        have e : readPumpStep s cid (.received none) now = s := by
          simp only [readPumpStep, hc]
        rw [e]
        exact hinv
      | some m =>
        have e : readPumpStep s cid (.received (some m)) now
            = broadcastTo s c.channelID (stampMessage c.channelID now m) := by
          simp only [readPumpStep, hc]
        rw [e]
        exact inv_broadcast s c.channelID _ hinv
  | dequeue cid c p rest hc hmb =>
    exact inv_update_conn s cid c _ hinv hc rfl rfl
  | drainExit cid c hc hst hcl hmb =>
    refine inv_update_conn_inactive s cid c _ hinv hc ?_ ?_
    · rw [hst]
      intro h
      cases h
    · intro h
      cases h

theorem reachable_inv (s : SysState) (h : Reachable s) : Inv s := by
  induction h with
  | init => exact inv_init
  | step hr hs ih => exact inv_step _ _ ih hs

/-! ### Claim theorems -/

/-- C1: `Hub.Broadcast` attempts a non-blocking enqueue of the payload into
each current member's mailbox, a bounded queue whose capacity is fixed at
256 at creation: a member whose mailbox is full keeps its mailbox unchanged
(the payload is dropped for it alone, with no blocking, no retry, and no
error — `Broadcast` is a total function returning only the new state),
while any member with free capacity gets the payload appended. -/
theorem c1_broadcast_drop_full_only
    (s : SysState) (topic : String) (p : Payload) (mems : List Nat)
    (r1 r2 : Nat) (c1 c2 : Conn)
    (hm : getEntry s.channels topic = some mems) (hnd : mems.Nodup)
    (h1 : r1 ∈ mems) (h2 : r2 ∈ mems)
    (hc1 : getEntry s.conns r1 = some c1) (hc2 : getEntry s.conns r2 = some c2)
    (hfull : sendCap ≤ c1.mailbox.length) (hroom : c2.mailbox.length < sendCap) :
    sendCap = 256 ∧
    getEntry (broadcastTo s topic p).conns r1 = some c1 ∧
    getEntry (broadcastTo s topic p).conns r2
      = some { c2 with mailbox := c2.mailbox ++ [p] } := by
  have hb : (broadcastTo s topic p).conns
      = mems.foldl (fun cs cid => enqueueTo cs cid p) s.conns := by
    simp only [broadcastTo, hm]
  refine ⟨rfl, ?_, ?_⟩
  · rw [hb, getEntry_foldl_enqueue mems s.conns p r1 c1 hnd h1 hc1]
    have he : trySend c1.mailbox p = c1.mailbox := by
      simp [trySend, Nat.not_lt.mpr hfull]
    rw [he]
  · rw [hb, getEntry_foldl_enqueue mems s.conns p r2 c2 hnd h2 hc2]
    simp [trySend, hroom]

/-- Witness for C1: in a two-member topic where client 0 is at capacity and
client 1 has room, broadcasting drops for client 0 only and delivers to
client 1. -/
theorem c1_broadcast_drop_full_only_witness :
    sendCap = 256 ∧
    getEntry (broadcastTo exStateFull "general" exMsgOdd).conns 0
      = some exConnFull ∧
    getEntry (broadcastTo exStateFull "general" exMsgOdd).conns 1
      = some { exConnA with mailbox := exConnA.mailbox ++ [exMsgOdd] } :=
  c1_broadcast_drop_full_only exStateFull "general" exMsgOdd [0, 1] 0 1
    exConnFull exConnA rfl (by decide) (by decide) (by decide) rfl rfl
    (by simp only [exConnFull, List.length_replicate]; decide) (by decide)

/-- C2: a successfully decoded inbound payload is handed to `Broadcast`
targeted at the connection's bound topic, with `channel_id` overwritten to
that topic, `type` overwritten to `message`, `created_at` filled with the
current time exactly when the client supplied the empty string, and
`author` / `content` passed through unchanged. -/
theorem c2_inbound_stamping (s : SysState) (cid : Nat) (c : Conn)
    (now : String) (m : WSMessage)
    (hc : getEntry s.conns cid = some c) :
    readPumpStep s cid (.received (some m)) now
      = broadcastTo s c.channelID (stampMessage c.channelID now m) ∧
    (stampMessage c.channelID now m).channel_id = c.channelID ∧
    (stampMessage c.channelID now m).type = "message" ∧
    (stampMessage c.channelID now m).created_at
      = (if m.created_at = "" then now else m.created_at) ∧
    (stampMessage c.channelID now m).author = m.author ∧
    (stampMessage c.channelID now m).content = m.content := by
  refine ⟨?_, rfl, rfl, rfl, rfl, rfl⟩
  simp only [readPumpStep, hc]

/-- Witness for C2: a message with a spoofed `channel_id` and empty
`created_at`, received by client 0 bound to `general`. -/
theorem c2_inbound_stamping_witness :
    readPumpStep exStateAB 0 (.received (some exMsgEmpty)) "2026-10-11T00:00:00Z"
      = broadcastTo exStateAB exConnA.channelID
          (stampMessage exConnA.channelID "2026-10-11T00:00:00Z" exMsgEmpty) ∧
    (stampMessage exConnA.channelID "2026-10-11T00:00:00Z" exMsgEmpty).channel_id
      = exConnA.channelID ∧
    (stampMessage exConnA.channelID "2026-10-11T00:00:00Z" exMsgEmpty).type
      = "message" ∧
    (stampMessage exConnA.channelID "2026-10-11T00:00:00Z" exMsgEmpty).created_at
      = (if exMsgEmpty.created_at = "" then "2026-10-11T00:00:00Z"
         else exMsgEmpty.created_at) ∧
    (stampMessage exConnA.channelID "2026-10-11T00:00:00Z" exMsgEmpty).author
      = exMsgEmpty.author ∧
    (stampMessage exConnA.channelID "2026-10-11T00:00:00Z" exMsgEmpty).content
      = exMsgEmpty.content :=
  c2_inbound_stamping exStateAB 0 exConnA "2026-10-11T00:00:00Z" exMsgEmpty
    (by decide)

/-- C6: mailbox delivery is FIFO. Broadcasting `p1` then `p2` to a topic
leaves each member's mailbox equal to the old contents extended by a
subsequence of `[p1, p2]` — dropped payloads are absent, never reordered or
duplicated — and when the mailbox had room for both, the outbound loop
(`writePump`, which dequeues front-first) writes `p1` before `p2` after the
earlier backlog. -/
theorem c6_fifo_order
    (s : SysState) (topic : String) (p1 p2 : Payload) (mems : List Nat)
    (r : Nat) (c : Conn)
    (hm : getEntry s.channels topic = some mems) (hnd : mems.Nodup)
    (hr : r ∈ mems) (hc : getEntry s.conns r = some c) :
    ∃ c2, getEntry (broadcastTo (broadcastTo s topic p1) topic p2).conns r
        = some c2 ∧
      c2.mailbox = trySend (trySend c.mailbox p1) p2 ∧
      (∃ l, List.Sublist l [p1, p2] ∧ c2.mailbox = c.mailbox ++ l) ∧
      (c.mailbox.length + 1 < sendCap →
        writePumpRun c2.mailbox = writePumpRun c.mailbox ++ [p1, p2]) := by
  have hm1 : getEntry (broadcastTo s topic p1).channels topic = some mems := by
    rw [broadcastTo_channels]
    exact hm
  have hc1 : getEntry (broadcastTo s topic p1).conns r
      = some { c with mailbox := trySend c.mailbox p1 } := by
    rw [broadcastTo_conns s topic p1 mems hm]
    exact getEntry_foldl_enqueue _ _ _ _ _ hnd hr hc
  have hb2 : (broadcastTo (broadcastTo s topic p1) topic p2).conns
      = mems.foldl (fun cs cid => enqueueTo cs cid p2)
          (broadcastTo s topic p1).conns :=
    broadcastTo_conns (broadcastTo s topic p1) topic p2 mems hm1
  refine ⟨{ c with mailbox := trySend (trySend c.mailbox p1) p2 }, ?_, rfl,
    ?_, ?_⟩
  · rw [hb2]
    exact getEntry_foldl_enqueue _ _ _ _ _ hnd hr hc1
  · by_cases h1 : c.mailbox.length < sendCap
    · have e1 : trySend c.mailbox p1 = c.mailbox ++ [p1] := if_pos h1
      by_cases h2 : (c.mailbox ++ [p1]).length < sendCap
      · have e2 : trySend (c.mailbox ++ [p1]) p2 = (c.mailbox ++ [p1]) ++ [p2] :=
          if_pos h2
        exact ⟨[p1, p2], List.Sublist.refl _, by simp [e1, e2]⟩
      · have e2 : trySend (c.mailbox ++ [p1]) p2 = c.mailbox ++ [p1] :=
          if_neg h2
        exact ⟨[p1], (List.nil_sublist [p2]).cons₂ p1, by simp [e1, e2]⟩
    · have e1 : trySend c.mailbox p1 = c.mailbox := if_neg h1
      have e2 : trySend c.mailbox p2 = c.mailbox := if_neg h1
      exact ⟨[], List.nil_sublist _, by simp [e1, e2]⟩
  · intro hlen
    have h1 : c.mailbox.length < sendCap := by omega
    have e1 : trySend c.mailbox p1 = c.mailbox ++ [p1] := if_pos h1
    have h2 : (c.mailbox ++ [p1]).length < sendCap := by
      simp only [List.length_append, List.length_singleton]
      omega
    have e2 : trySend (c.mailbox ++ [p1]) p2 = (c.mailbox ++ [p1]) ++ [p2] :=
      if_pos h2
    simp [e1, e2, writePumpRun_eq]

/-- Witness for C6: both broadcasts fit in client 0's empty mailbox, which
ends as `[p1, p2]`. -/
theorem c6_fifo_order_witness :
    ∃ c2, getEntry (broadcastTo (broadcastTo exStateAB "general" exMsgOdd)
        "general" exMsgEmpty).conns 0 = some c2 ∧
      c2.mailbox = trySend (trySend exConnA.mailbox exMsgOdd) exMsgEmpty ∧
      (∃ l, List.Sublist l [exMsgOdd, exMsgEmpty] ∧
        c2.mailbox = exConnA.mailbox ++ l) ∧
      (exConnA.mailbox.length + 1 < sendCap →
        writePumpRun c2.mailbox
          = writePumpRun exConnA.mailbox ++ [exMsgOdd, exMsgEmpty]) :=
  c6_fifo_order exStateAB "general" exMsgOdd exMsgEmpty [0, 1] 0 exConnA
    rfl (by decide) (by decide) rfl

/-- C7: `HandleWebSocket` rejects an empty `channel` query parameter
synchronously with HTTP 400, before any client object or mailbox is
allocated and before the registry is touched (the state is returned
unchanged); with a non-empty topic no client-error rejection occurs for
any upgrade outcome. -/
theorem c7_empty_topic_rejected (s : SysState) (cp : String) (u : Bool)
    (f : Nat) :
    (cp = "" → handleWebSocket s cp u f = (.clientError statusBadRequest, s)) ∧
    (cp ≠ "" → ∀ code, (handleWebSocket s cp u f).1 ≠ .clientError code) := by
  constructor
  · intro h
    simp [handleWebSocket, h]
  · intro h code
    cases u <;> simp [handleWebSocket, h]

/-- Witness for C7: the empty topic is rejected with 400 and no state
change; the topic `general` is never rejected with a client error. -/
theorem c7_empty_topic_rejected_witness :
    handleWebSocket exStateAB "" true 5
      = (.clientError statusBadRequest, exStateAB) ∧
    (handleWebSocket exStateAB "general" true 5).1 ≠ .clientError 400 :=
  ⟨(c7_empty_topic_rejected exStateAB "" true 5).1 rfl,
   (c7_empty_topic_rejected exStateAB "general" true 5).2 (by decide) 400⟩

/-- C8: an inbound payload that fails to decode is discarded and the loop
continues: one `readPump` iteration on a decode failure returns the state
completely unchanged — the connection stays registered and Active, its
mailbox stays open, nothing is broadcast, and no other connection is
affected. -/
theorem c8_malformed_payload_ignored (s : SysState) (cid : Nat) (now : String) :
    readPumpStep s cid (.received none) now = s := by
  unfold readPumpStep
  cases getEntry s.conns cid with
  | none => rfl
  | some c => rfl

/-- C5: `Hub.Unregister` is idempotent: unregistering a client that has
already been unregistered is a no-op and not an error — the state after two
calls equals the state after one, so the mailbox-close and the topic
cleanup of the first call each happen exactly once and the second call
changes nothing. -/
theorem c5_unregister_idempotent (s : SysState) (cid : Nat) :
    unregisterClient (unregisterClient s cid) cid = unregisterClient s cid := by
  cases hc : getEntry s.conns cid with
  | none =>
    have h1 := unregisterClient_no_conn s cid hc
    rw [h1]
    exact h1
  | some c =>
    cases hch : getEntry s.channels c.channelID with
    | none =>
      have h1 := unregisterClient_no_topic s cid c hc hch
      rw [h1]
      exact h1
    | some mems =>
      have h1 := unregisterClient_eq s cid c mems hc hch
      by_cases hpres : cid ∈ mems
      · by_cases hemp : (mems.filter (fun m => m ≠ cid)).isEmpty
        · -- the client was the last member: the topic entry is deleted
          rw [if_pos hemp, if_pos hpres] at h1
          rw [h1]
          have g1 : getEntry (setEntry s.conns cid { c with mbClosed := true })
              cid = some { c with mbClosed := true } :=
            getEntry_setEntry_self _ _ _
          have g2 : getEntry (delEntry s.channels c.channelID) c.channelID
              = none :=
            getEntry_delEntry_self _ _
          exact unregisterClient_no_topic _ cid { c with mbClosed := true } g1 g2
        · -- other members remain: the entry shrinks by this client
          rw [if_neg hemp, if_pos hpres] at h1
          rw [h1]
          have g1 : getEntry (setEntry s.conns cid { c with mbClosed := true })
              cid = some { c with mbClosed := true } :=
            getEntry_setEntry_self _ _ _
          have g2 : getEntry
              (setEntry s.channels c.channelID (mems.filter (fun m => m ≠ cid)))
              c.channelID = some (mems.filter (fun m => m ≠ cid)) :=
            getEntry_setEntry_self _ _ _
          have h2 := unregisterClient_eq
            ⟨setEntry s.channels c.channelID (mems.filter (fun m => m ≠ cid)),
             setEntry s.conns cid { c with mbClosed := true }⟩
            cid { c with mbClosed := true }
            (mems.filter (fun m => m ≠ cid)) g1 g2
          rw [filter_ne_idem] at h2
          rw [if_neg hemp, if_neg (not_mem_filter_ne_self mems cid)] at h2
          rw [h2, setEntry_setEntry]
      · -- the client was not a member: nothing to remove
        have hfix : mems.filter (fun m => m ≠ cid) = mems :=
          filter_ne_of_not_mem mems cid hpres
        by_cases hemp : (mems.filter (fun m => m ≠ cid)).isEmpty
        · rw [if_pos hemp, if_neg hpres] at h1
          rw [h1]
          have g2 : getEntry (delEntry s.channels c.channelID) c.channelID
              = none :=
            getEntry_delEntry_self _ _
          exact unregisterClient_no_topic _ cid c hc g2
        · rw [if_neg hemp, if_neg hpres, hfix,
              setEntry_eq_of_getEntry _ _ _ hch] at h1
          rw [h1]
          exact h1

/-- C10: a non-empty client-supplied `created_at` string is forwarded
verbatim in the broadcast message: `readPump` only tests it against the
empty string and never parses, rejects, or normalizes it. -/
theorem c10_created_at_passthrough (t now : String) (m : WSMessage)
    (h : m.created_at ≠ "") :
    (stampMessage t now m).created_at = m.created_at := by
  simp [stampMessage, h]

/-- Witness for C10: the string `not-a-timestamp`, which is not RFC3339,
passes through unchanged. -/
theorem c10_created_at_passthrough_witness :
    (stampMessage "general" "2026-10-11T00:00:00Z" exMsgOdd).created_at
      = exMsgOdd.created_at :=
  c10_created_at_passthrough "general" "2026-10-11T00:00:00Z" exMsgOdd
    (by decide)

/-- C3: in every reachable state, every connection in a topic's member set
is bound to that topic and currently Active — never Draining or Closed —
and consequently every connection appears in at most one topic's member set
at a time. -/
theorem c3_members_active_bound (s : SysState) (hs : Reachable s) :
    (∀ t mems cid, getEntry s.channels t = some mems → cid ∈ mems →
      ∃ c, getEntry s.conns cid = some c ∧ c.channelID = t ∧
        c.status = ConnStatus.active) ∧
    (∀ t1 t2 mems1 mems2 cid, getEntry s.channels t1 = some mems1 →
      getEntry s.channels t2 = some mems2 → cid ∈ mems1 → cid ∈ mems2 →
      t1 = t2) := by
  obtain ⟨K1, K2, M, A⟩ := reachable_inv s hs
  constructor
  · intro t mems cid hm hin
    exact (M t mems hm).2.2 cid hin
  · intro t1 t2 mems1 mems2 cid hm1 hm2 h1 h2
    obtain ⟨c1, hc1, hb1, _⟩ := (M t1 mems1 hm1).2.2 cid h1
    obtain ⟨c2, hc2, hb2, _⟩ := (M t2 mems2 hm2).2.2 cid h2
    rw [hc1] at hc2
    obtain rfl := Option.some.inj hc2
    exact hb1.symm.trans hb2

/-- Witness for C3: after one client connects to `general` from the empty
hub, the single member of `general` is bound to it and Active. -/
theorem c3_members_active_bound_witness :
    ∃ c, getEntry (connectClient ⟨[], []⟩ 0 "general").conns 0 = some c ∧
      c.channelID = "general" ∧ c.status = ConnStatus.active :=
  (c3_members_active_bound (connectClient ⟨[], []⟩ 0 "general")
      (Reachable.step Reachable.init
        (Step.connect ⟨[], []⟩ 0 "general" (by decide) rfl))).1
    "general" [0] 0 (by decide) (by decide)

/-- C4: a topic entry exists iff its member set is non-empty: every topic
entry of a reachable state is non-empty; unregistering the last member of a
topic removes its entry, so the topic is absent from subsequent lookups;
and a client registering to an absent topic starts from a freshly created
singleton member set. -/
theorem c4_topic_entry_iff_nonempty :
    (∀ s, Reachable s → ∀ t mems, getEntry s.channels t = some mems →
      mems ≠ []) ∧
    (∀ s cid c, getEntry s.conns cid = some c →
      getEntry s.channels c.channelID = some [cid] →
      getEntry (unregisterClient s cid).channels c.channelID = none) ∧
    (∀ channels topic cid, getEntry channels topic = none →
      getEntry (registerMember channels topic cid) topic = some [cid]) := by
  refine ⟨?_, ?_, ?_⟩
  · intro s hs t mems hm
    obtain ⟨_, _, M, _⟩ := reachable_inv s hs
    exact (M t mems hm).1
  · intro s cid c hc hch
    have e := unregisterClient_eq s cid c [cid] hc hch
    have hemp : (([cid] : List Nat).filter (fun m => m ≠ cid)).isEmpty := by
      simp
    rw [if_pos hemp, if_pos (List.mem_singleton_self cid)] at e
    rw [e]
    exact getEntry_delEntry_self _ _
  · intro channels topic cid hch
    simp only [registerMember, hch]
    exact getEntry_setEntry_self _ _ _

/-- Witness for C4: a reachable singleton topic is non-empty; unregistering
its only member removes the `general` entry; registering id 7 to an absent
topic yields the fresh set containing exactly 7. -/
theorem c4_topic_entry_iff_nonempty_witness :
    ([0] : List Nat) ≠ [] ∧
    getEntry (unregisterClient (connectClient ⟨[], []⟩ 0 "general") 0).channels
      "general" = none ∧
    getEntry (registerMember [] "general" 7) "general" = some [7] :=
  ⟨c4_topic_entry_iff_nonempty.1 (connectClient ⟨[], []⟩ 0 "general")
      (Reachable.step Reachable.init
        (Step.connect ⟨[], []⟩ 0 "general" (by decide) rfl))
      "general" [0] (by decide),
   c4_topic_entry_iff_nonempty.2.1 (connectClient ⟨[], []⟩ 0 "general") 0
      ⟨"general", [], false, .active⟩ (by decide) (by decide),
   c4_topic_entry_iff_nonempty.2.2 [] "general" 7 rfl⟩

/-- C9: the broadcast recipient set is the full member set of the
publisher's topic, the publisher included: in every reachable state, an
Active connection is a member of its own topic's set, and when it publishes
a decoded message with free capacity in its own mailbox, its own mailbox
receives its own stamped message (self-echo is on). -/
theorem c9_self_echo (s : SysState) (cid : Nat) (c : Conn) (m : WSMessage)
    (now : String) (hs : Reachable s)
    (hc : getEntry s.conns cid = some c) (hact : c.status = ConnStatus.active)
    (hroom : c.mailbox.length < sendCap) :
    ∃ mems, getEntry s.channels c.channelID = some mems ∧ cid ∈ mems ∧
      ∃ c2, getEntry (readPumpStep s cid (.received (some m)) now).conns cid
          = some c2 ∧
        c2.mailbox = c.mailbox ++ [stampMessage c.channelID now m] := by
  obtain ⟨K1, K2, M, A⟩ := reachable_inv s hs
  obtain ⟨mems, hmem, hin⟩ := A cid c hc hact
  refine ⟨mems, hmem, hin, ?_⟩
  have e : readPumpStep s cid (.received (some m)) now
      = broadcastTo s c.channelID (stampMessage c.channelID now m) := by
    simp only [readPumpStep, hc]
  rw [e, broadcastTo_conns s c.channelID _ mems hmem]
  refine ⟨_, getEntry_foldl_enqueue mems s.conns _ cid c
    (M c.channelID mems hmem).2.1 hin hc, ?_⟩
  simp [trySend, hroom]

/-- Witness for C9: the lone `general` member publishes and finds its own
message in its own mailbox. -/
theorem c9_self_echo_witness :
    ∃ mems, getEntry (connectClient ⟨[], []⟩ 0 "general").channels
        exConnA.channelID = some mems ∧ 0 ∈ mems ∧
      ∃ c2, getEntry (readPumpStep (connectClient ⟨[], []⟩ 0 "general") 0
          (.received (some exMsgEmpty)) "2026-10-11T00:00:00Z").conns 0
          = some c2 ∧
        c2.mailbox = exConnA.mailbox
          ++ [stampMessage exConnA.channelID "2026-10-11T00:00:00Z" exMsgEmpty] :=
  c9_self_echo (connectClient ⟨[], []⟩ 0 "general") 0 exConnA exMsgEmpty
    "2026-10-11T00:00:00Z"
    (Reachable.step Reachable.init
      (Step.connect ⟨[], []⟩ 0 "general" (by decide) rfl))
    (by decide) rfl (by decide)

end GasTown
